import Mathlib

/-!
Shallow embedding of the concept-vocabulary resolution and validation engine
implemented in src/cleaners/check_vocab.py of the shataba repository.

Modelling conventions:
- a table cell is an Option String (none is a missing value, pandas NA);
- a Python dict is an association list kept in insertion order, where
  assignment to an existing key replaces its value in place and assignment
  to a fresh key appends at the end;
- a Python set of strings is a duplicate-free list in first-occurrence order;
- the collections.xml file read by parse_collections_xml is passed explicitly
  as an XmlFile value (missing file, malformed document, or the list of
  skos Collection elements); the console panels the function prints are
  surfaced as an Option ParseMsg next to the returned dictionary, since the
  calling code receives only the dictionary.
-/

namespace Shataba

/-- Characters matched by the Python regex class of ASCII letters and digits. -/
def isAlnumChar (c : Char) : Bool :=
  (65 ≤ c.toNat && c.toNat ≤ 90) || (97 ≤ c.toNat && c.toNat ≤ 122) ||
    (48 ≤ c.toNat && c.toNat ≤ 57)

/-- ASCII lowercasing of one character, as Python str.lower acts on ASCII input. -/
def lowerChar (c : Char) : Char :=
  if 65 ≤ c.toNat && c.toNat ≤ 90 then Char.ofNat (c.toNat + 32) else c

/-- Python str.lower restricted to ASCII strings. -/
def pyLower (s : String) : String :=
  String.mk (s.data.map lowerChar)

/-- Python truthiness of an optional string: None and the empty string are falsy. -/
def truthyOpt : Option String → Bool
  | none => false
  | some s => !(s == "")

/-- Contiguous-substring membership on character lists, Python needle in hay. -/
def listContainsSub (needle : List Char) : List Char → Bool
  | [] => needle.isEmpty
  | c :: rest => needle.isPrefixOf (c :: rest) || listContainsSub needle rest

/-- Python substring test, needle in hay. -/
def strIn (needle hay : String) : Bool :=
  listContainsSub needle.data hay.data

/-- First-match lookup in an association list, Python dict get. -/
def dictLookup {α : Type} (l : List (String × α)) (k : String) : Option α :=
  (l.find? (fun p => p.1 == k)).map (fun p => p.2)

/-- Python dict assignment: replace the value of an existing key in place,
otherwise append the new pair at the end. -/
def dictInsert {α : Type} (l : List (String × α)) (k : String) (v : α) :
    List (String × α) :=
  if l.any (fun p => p.1 == k) then
    l.map (fun p => if p.1 == k then (k, v) else p)
  else
    l ++ [(k, v)]

/-- Worker for pydedup, carrying the set of strings already emitted. -/
def pydedupAux (seen : List String) : List String → List String
  | [] => []
  | x :: xs => if seen.contains x then pydedupAux seen xs else x :: pydedupAux (x :: seen) xs

/-- Python set(...) of a list of strings, kept in first-occurrence order
(also the behaviour of pandas Series.unique). -/
def pydedup (l : List String) : List String :=
  pydedupAux [] l

/-- The config entry of a graph node: absent, a JSON object, or another value. -/
inductive NodeConfig where
  | absent
  | dict (entries : List (String × Option String))
  | other
deriving DecidableEq

/-- One node record of the resource-model graph, as read from graph.0.nodes. -/
structure RNode where
  name : Option String
  nodeid : Option String
  datatype : Option String
  config : NodeConfig
deriving DecidableEq

/-- The resource model, reduced to the node list that glom extracts. -/
structure ResourceModel where
  nodes : List RNode
deriving DecidableEq

/-- Entry of the dictionary built by parse_collections_xml. -/
structure CollectionInfo where
  label : String
  label_id : String
deriving DecidableEq

/-- One skos Collection element of collections.xml: its rdf about attribute
and, when the English prefLabel element exists, its text (which itself may
be missing on an empty element). -/
structure RawCollection where
  about : Option String
  prefLabelEn : Option (Option String)
deriving DecidableEq

/-- The collections.xml input as seen by parse_collections_xml. -/
inductive XmlFile where
  | missing
  | malformed
  | parsed (collections : List RawCollection)
deriving DecidableEq

/-- The console panel printed by parse_collections_xml, if any. -/
inductive ParseMsg where
  | warnMissing
  | errMalformed
deriving DecidableEq

/-- The Site_concepts.json structure: category name to a JSON object whose
values are the acceptable term labels, in file order. -/
abbrev Concepts := List (String × List (String × String))

/-- The double quote character. -/
def quoteChar : Char := Char.ofNat 34

/-- Splitting a character list on every occurrence of a separator, the
behaviour of the Python str split method with an explicit separator. -/
def splitOnChar (sep : Char) : List Char → List (List Char)
  | [] => [[]]
  | c :: rest =>
    if c == sep then [] :: splitOnChar sep rest
    else
      match splitOnChar sep rest with
      | [] => [[c]]
      | h :: t => (c :: h) :: t

/-- The final path segment of a URI: the last element of the split on the
slash character. -/
def lastSegment (uri : String) : String :=
  String.mk ((splitOnChar '/' uri.data).getLastD [])

/-- ASCII whitespace as matched by the Python regex escape for spaces:
space, tab, newline, vertical tab, form feed, carriage return. -/
def isSpaceChar (c : Char) : Bool :=
  c.toNat == 32 || (9 ≤ c.toNat && c.toNat ≤ 13)

/-- After the literal quoted key and colon, the pattern allows whitespace,
then an opening quote, a nonempty run of non-quote characters (the capture)
and a closing quote. -/
def patternAfterKey (rest : List Char) : Option (List Char) :=
  match rest.dropWhile isSpaceChar with
  | [] => none
  | c :: rest1 =>
    if c == quoteChar then
      let cap := rest1.takeWhile (fun d => d != quoteChar)
      if cap.isEmpty then none
      else if (rest1.drop cap.length).head? == some quoteChar then some cap
      else none
    else none

/-- Left-to-right regex search used on the label text by ID_PATTERN and
VALUE_PATTERN: the literal quoted key, a colon, optional whitespace, then a
nonempty quoted capture. The first position at which the whole pattern
matches wins. -/
def patternFind (key : String) : List Char → Option String
  | [] => none
  | c :: rest =>
    let pat := quoteChar :: (key.data ++ [quoteChar, ':'])
    if pat.isPrefixOf (c :: rest) then
      match patternAfterKey ((c :: rest).drop pat.length) with
      | some cap => some (String.mk cap)
      | none => patternFind key rest
    else patternFind key rest

/-- Body of the parse loop of parse_collections_xml on a well-formed document:
for each collection with a truthy rdf about attribute, take the last path
segment of the URI as the UUID; when the English prefLabel text exists, is
truthy, and starts with the JSON-like id marker, extract the id and value
fields with the two independent pattern searches and record the entry. -/
def buildCollectionIndex (cs : List RawCollection) : List (String × CollectionInfo) :=
  cs.foldl
    (fun acc col =>
      match col.about with
      | none => acc
      | some uri =>
        if uri == "" then acc
        else
          let uuid := lastSegment uri
          match col.prefLabelEn with
          | some (some t) =>
            if t != "" && ("\x7b\"id\":").data.isPrefixOf t.data then
              match patternFind "id" t.data, patternFind "value" t.data with
              | some labelId, some labelValue =>
                  dictInsert acc uuid ⟨labelValue, labelId⟩
              | _, _ => acc
            else acc
          | _ => acc)
    []

/-- parse_collections_xml: a missing file prints a warning panel and returns
the empty dictionary; a malformed document prints an error panel and returns
the empty dictionary; otherwise the parse loop builds the dictionary. -/
def parse_collections_xml : XmlFile → List (String × CollectionInfo) × Option ParseMsg
  | XmlFile.missing => ([], some ParseMsg.warnMissing)
  | XmlFile.malformed => ([], some ParseMsg.errMalformed)
  | XmlFile.parsed cs => (buildCollectionIndex cs, none)

/-- Datatype test selecting vocabulary-bearing nodes. -/
def isConceptDatatype : Option String → Bool
  | some d => d == "concept-list" || d == "concept"
  | none => false

/-- Reading rdmCollection out of a node config, as the source does after its
isinstance dict check; a missing config defaults to an empty dict. -/
def configRdmCollection : NodeConfig → Option String
  | NodeConfig.absent => none
  | NodeConfig.other => none
  | NodeConfig.dict entries => (dictLookup entries "rdmCollection").bind id

/-- Value stored per node name by get_concept_nodes_with_collections. -/
structure NodeColInfo where
  node_id : String
  rdm_collection_uuid : Option String
deriving DecidableEq

/-- Loop body of get_concept_nodes_with_collections for one graph node. -/
def conceptNodeStep (acc : List (String × NodeColInfo)) (node : RNode) :
    List (String × NodeColInfo) :=
  if isConceptDatatype node.datatype then
    dictInsert acc (node.name.getD "")
      ⟨node.nodeid.getD "", configRdmCollection node.config⟩
  else acc

/-- get_concept_nodes_with_collections: walk the node list, keep the
vocabulary-bearing nodes, and key the result dictionary by node name. -/
def get_concept_nodes_with_collections (rm : ResourceModel) :
    List (String × NodeColInfo) :=
  rm.nodes.foldl conceptNodeStep []

/-- The partial-match condition of find_concept_category: the lowercased
collection label is a substring of the lowercased category name or the
other way round. -/
def categoryMatches (collection_label : String) (category : String) : Bool :=
  strIn (pyLower collection_label) (pyLower category) ||
    strIn (pyLower category) (pyLower collection_label)

/-- find_concept_category: a falsy label resolves to nothing; a label that is
a key of the concepts dictionary resolves to itself; otherwise the first
category in dictionary order satisfying the partial-match condition wins. -/
def find_concept_category (collection_label : String) (concepts : Concepts) :
    Option String :=
  if collection_label == "" then none
  else if concepts.any (fun p => p.1 == collection_label) then some collection_label
  else
    concepts.findSome?
      (fun p => if categoryMatches collection_label p.1 then some p.1 else none)

/-- The resolved record per node name built by build_concept_mappings. -/
structure CMapping where
  node_id : String
  rdm_collection_uuid : Option String
  collection_label : Option String
  collection_label_id : Option String
  concept_category : Option String
  available_concepts : List (String × String)
deriving DecidableEq

/-- Loop body of build_concept_mappings for one concept node: a node with a
truthy rdmCollection UUID gets the collection label and label id (defaulting
to the empty string), the resolved category and, when the category is truthy,
its concept set; any other node gets an all-absent record. -/
def buildMappingStep (collections_mapping : List (String × CollectionInfo))
    (concepts : Concepts) (acc : List (String × CMapping))
    (pair : String × NodeColInfo) : List (String × CMapping) :=
  match pair.2.rdm_collection_uuid with
  | some uuid =>
    if uuid == "" then
      dictInsert acc pair.1 ⟨pair.2.node_id, none, none, none, none, []⟩
    else
      let collection_info := dictLookup collections_mapping uuid
      let collection_label := (collection_info.map CollectionInfo.label).getD ""
      let collection_label_id :=
        (collection_info.map CollectionInfo.label_id).getD ""
      let concept_category := find_concept_category collection_label concepts
      let available_concepts :=
        if truthyOpt concept_category then
          (dictLookup concepts (concept_category.getD "")).getD []
        else []
      dictInsert acc pair.1
        ⟨pair.2.node_id, some uuid, some collection_label,
          some collection_label_id, concept_category, available_concepts⟩
  | none => dictInsert acc pair.1 ⟨pair.2.node_id, none, none, none, none, []⟩

/-- build_concept_mappings: join the concept nodes with the collections
dictionary and the concepts catalog. -/
def build_concept_mappings (rm : ResourceModel) (concepts : Concepts)
    (xml : XmlFile) : List (String × CMapping) :=
  (get_concept_nodes_with_collections rm).foldl
    (buildMappingStep (parse_collections_xml xml).1 concepts) []

/-- Loop body of the column dictionary construction at the top of
validate_and_clean_concept_values: keep the mappings with a truthy category. -/
def columnToConceptStep (acc : List (String × String)) (pair : String × CMapping) :
    List (String × String) :=
  match pair.2.concept_category with
  | some c => if c == "" then acc else dictInsert acc pair.1 c
  | none => acc

/-- The column name to category dictionary built at the top of
validate_and_clean_concept_values from the mappings with a truthy category. -/
def column_to_concept (rm : ResourceModel) (concepts : Concepts) (xml : XmlFile) :
    List (String × String) :=
  (build_concept_mappings rm concepts xml).foldl columnToConceptStep []

/-- A table cell: none is a missing value. -/
abbrev Cell := Option String

/-- Core of normalize_value on a nonempty present string: lowercase, then
drop every character outside ASCII letters and digits (the Python source
applies str.lower first and the regex substitution second). -/
def normCore (s : String) : String :=
  String.mk ((s.data.map lowerChar).filter isAlnumChar)

/-- normalize_value: missing values and the empty string normalize to the
empty string; anything else is lowercased and stripped. -/
def normalize_value : Cell → String
  | none => ""
  | some s => if s == "" then "" else normCore s

/-- Per-column entry of the details dictionary of the validation report. -/
structure Detail where
  concept_category : String
  offending_count : Nat
  offending_values : List String
  acceptable_count : Nat
  sample_acceptable_values : List String
deriving DecidableEq

/-- The validation report of validate_and_clean_concept_values. -/
structure VReport where
  total_rows : Nat
  columns_checked : List String
  offending_values_found : Nat
  offending_values_removed : Nat
  details : List (String × Detail)
deriving DecidableEq

/-- A materialized table: its row count and its named columns in order. -/
structure DataFrame where
  nrows : Nat
  cols : List (String × List Cell)
deriving DecidableEq

/-- Mutable state of the column loop of validate_and_clean_concept_values. -/
structure VState where
  cols : List (String × List Cell)
  columns_checked : List String
  offending_values_found : Nat
  offending_values_removed : Nat
  details : List (String × Detail)
deriving DecidableEq

/-- The acceptable raw values of a category: the set of the values of its
concepts entry, in first-occurrence order. -/
def acceptableRaw (concepts : Concepts) (cat : String) : List String :=
  pydedup (((dictLookup concepts cat).getD []).map (fun p => p.2))

/-- The normalized acceptable set of a category. -/
def acceptableNorm (concepts : Concepts) (cat : String) : List String :=
  pydedup ((acceptableRaw concepts cat).map (fun v => normalize_value (some v)))

/-- The offending test of the validator: a cell is offending when its
normalized form is not in the normalized acceptable set and is nonempty. -/
def isOffendingCell (acceptNorm : List String) (cell : Cell) : Bool :=
  !(acceptNorm.contains (normalize_value cell)) && !(normalize_value cell == "")

/-- Case-insensitive search for the first table column matching a field name. -/
def findMatchingColumn (cols : List (String × List Cell)) (column_name : String) :
    Option String :=
  (cols.find? (fun p => pyLower p.1 == pyLower column_name)).map (fun p => p.1)

/-- The values of the first column with the given name. -/
def colGet (cols : List (String × List Cell)) (name : String) : List Cell :=
  ((cols.find? (fun p => p.1 == name)).map (fun p => p.2)).getD []

/-- Replace the values of the first column with the given name. -/
def colSet : List (String × List Cell) → String → List Cell → List (String × List Cell)
  | [], _, _ => []
  | p :: rest, name, vals =>
    if p.1 == name then (p.1, vals) :: rest else p :: colSet rest name vals

/-- The raw string values of the offending cells of a column, duplicates kept
(a missing cell is never offending, so every offending cell carries a string). -/
def offendingRaw (acceptNorm : List String) (colData : List Cell) : List String :=
  colData.filterMap
    (fun cell =>
      match cell with
      | some v => if isOffendingCell acceptNorm (some v) then some v else none
      | none => none)

/-- Body of the column loop once a truthy matching column mc is found: record
it as checked and, when it holds offending values, count them, sample them,
blank them, and update the report state. -/
def vstepProcess (concepts : Concepts) (s : VState) (cat : String) (mc : String) :
    VState :=
  if (colGet s.cols mc).any (isOffendingCell (acceptableNorm concepts cat)) then
    ⟨colSet s.cols mc
        ((colGet s.cols mc).map
          (fun c => if isOffendingCell (acceptableNorm concepts cat) c then some "" else c)),
      s.columns_checked ++ [mc],
      s.offending_values_found +
        ((colGet s.cols mc).filter (isOffendingCell (acceptableNorm concepts cat))).length,
      s.offending_values_removed +
        ((colGet s.cols mc).filter (isOffendingCell (acceptableNorm concepts cat))).length,
      dictInsert s.details mc
        ⟨cat,
          ((colGet s.cols mc).filter (isOffendingCell (acceptableNorm concepts cat))).length,
          pydedup (offendingRaw (acceptableNorm concepts cat) (colGet s.cols mc)),
          (acceptableRaw concepts cat).length,
          (acceptableRaw concepts cat).take 5⟩⟩
  else
    ⟨s.cols, s.columns_checked ++ [mc], s.offending_values_found,
      s.offending_values_removed, s.details⟩

/-- One iteration of the column loop of validate_and_clean_concept_values:
find the table column matching the field name case-insensitively (a falsy
match is skipped) and process it. -/
def vstep (concepts : Concepts) (s : VState) (pair : String × String) : VState :=
  match findMatchingColumn s.cols pair.1 with
  | none => s
  | some mc => if mc == "" then s else vstepProcess concepts s pair.2 mc

/-- validate_and_clean_concept_values: build the column dictionary from the
mappings, run the column loop over a copy of the table, and return the
cleaned table with the validation report. -/
def validate_and_clean_concept_values (df : DataFrame) (rm : ResourceModel)
    (concepts : Concepts) (xml : XmlFile) : DataFrame × VReport :=
  let c2c := column_to_concept rm concepts xml
  let final := c2c.foldl (vstep concepts) ⟨df.cols, [], 0, 0, []⟩
  (⟨df.nrows, final.cols⟩,
    ⟨df.nrows, final.columns_checked, final.offending_values_found,
      final.offending_values_removed, final.details⟩)

/-! Derived notions used by the verification below. -/

/-- Evolution of one cell under the validator: a pass either keeps a cell or
blanks it to the empty string. -/
def CellRel (a b : Cell) : Prop := b = a ∨ b = some ""

/-- A column whose every cell fails the offending test. -/
def cleanCol (A : List String) (col : List Cell) : Prop :=
  ∀ c ∈ col, isOffendingCell A c = false

/-- The sum of the per-column offending counts recorded in the details
dictionary of a validation report. -/
def sumDetails (l : List (String × Detail)) : Nat :=
  (l.map (fun p => p.2.offending_count)).sum

/-! Concrete example inputs used by witnesses and counterexamples. -/

/-- A one-category catalog whose acceptable terms are Stone Age and Bone. -/
def exConceptsA : Concepts :=
  [("Material Type", [("1", "Stone Age"), ("2", "Bone")])]

/-- A two-category catalog where the label Site matches both keys. -/
def exConceptsB : Concepts :=
  [("Site Type", [("1", "Settlement")]), ("Site", [("1", "Cave")])]

/-- A resource model with a single concept node bound to collection u1. -/
def exRM1 : ResourceModel :=
  ⟨[⟨some "material", some "n1", some "concept",
      NodeConfig.dict [("rdmCollection", some "u1")]⟩]⟩

/-- A catalog whose single category Material has an empty term set. -/
def exConceptsEmptyCat : Concepts := [("Material", [])]

/-- A catalog whose single category Material accepts exactly Stone. -/
def exConceptsMat : Concepts := [("Material", [("1", "Stone")])]

/-- A thesaurus document with one collection u1 labelled Material. -/
def exXmlMaterial : XmlFile :=
  XmlFile.parsed
    [⟨some "http://x/u1", some (some "\x7b\"id\": \"a1\", \"value\": \"Material\"\x7d")⟩]

/-- A one-column one-row table holding the value Wood. -/
def exDFwood : DataFrame := ⟨1, [("material", [some "Wood"])]⟩

/-- A one-column table holding Stone, which is acceptable for Material. -/
def exDFstone : DataFrame := ⟨1, [("material", [some "Stone"])]⟩

/-- A one-column table holding six distinct offending values. -/
def exDFsix : DataFrame :=
  ⟨6, [("material", [some "Wood", some "Glass", some "Iron",
      some "Paper", some "Cloth", some "Amber"])]⟩

/-- A two-node resource model whose node names differ only by case, bound to
two different collections. -/
def exRM2 : ResourceModel :=
  ⟨[⟨some "material", some "n1", some "concept",
      NodeConfig.dict [("rdmCollection", some "u1")]⟩,
    ⟨some "MATERIAL", some "n2", some "concept-list",
      NodeConfig.dict [("rdmCollection", some "u2")]⟩]⟩

/-- A two-category catalog: CatA accepts Apple, CatB accepts Banana. -/
def exConcepts2 : Concepts :=
  [("CatA", [("1", "Apple")]), ("CatB", [("1", "Banana")])]

/-- A thesaurus document labelling u1 as CatA and u2 as CatB. -/
def exXml2 : XmlFile :=
  XmlFile.parsed
    [⟨some "http://x/u1", some (some "\x7b\"id\": \"a1\", \"value\": \"CatA\"\x7d")⟩,
     ⟨some "http://x/u2", some (some "\x7b\"id\": \"b1\", \"value\": \"CatB\"\x7d")⟩]

/-- A one-column two-row table holding Apple and Wood under column Material. -/
def exDF2 : DataFrame := ⟨2, [("Material", [some "Apple", some "Wood"])]⟩

/-! Basic lemmas about the helper functions. -/

theorem contains_iff_mem (l : List String) (a : String) : l.contains a = true ↔ a ∈ l :=
  List.elem_iff

theorem mem_pydedupAux (a : String) :
    ∀ (l seen : List String), a ∈ pydedupAux seen l ↔ a ∈ l ∧ a ∉ seen := by
  intro l
  induction l with
  | nil => intro seen; simp [pydedupAux]
  | cons x xs ih =>
    intro seen
    by_cases h : seen.contains x
    · have hx : x ∈ seen := (contains_iff_mem seen x).1 h
      simp only [pydedupAux, if_pos h, ih seen, List.mem_cons]
      by_cases hax : a = x
      · subst hax; simp [hx]
      · simp [hax]
    · have hx : x ∉ seen := fun hc => h ((contains_iff_mem seen x).2 hc)
      simp only [pydedupAux, if_neg h, List.mem_cons, ih (x :: seen)]
      by_cases hax : a = x
      · subst hax; simp [hx]
      · simp [hax]

theorem mem_pydedup (a : String) (l : List String) : a ∈ pydedup l ↔ a ∈ l := by
  simp [pydedup, mem_pydedupAux]

theorem nodup_pydedupAux : ∀ (l seen : List String), (pydedupAux seen l).Nodup := by
  intro l
  induction l with
  | nil => intro seen; simp [pydedupAux]
  | cons x xs ih =>
    intro seen
    by_cases h : seen.contains x
    · simp only [pydedupAux, if_pos h]
      exact ih seen
    · simp only [pydedupAux, if_neg h]
      refine List.Nodup.cons ?_ (ih (x :: seen))
      intro hx
      exact ((mem_pydedupAux x xs (x :: seen)).1 hx).2 (List.mem_cons_self x seen)

theorem nodup_pydedup (l : List String) : (pydedup l).Nodup :=
  nodup_pydedupAux l []

theorem length_pydedupAux_le : ∀ (l seen : List String),
    (pydedupAux seen l).length ≤ l.length := by
  intro l
  induction l with
  | nil => intro seen; simp [pydedupAux]
  | cons x xs ih =>
    intro seen
    by_cases h : seen.contains x
    · simp only [pydedupAux, if_pos h]
      exact Nat.le_succ_of_le (ih seen)
    · simp only [pydedupAux, if_neg h, List.length_cons]
      exact Nat.succ_le_succ (ih (x :: seen))

theorem length_pydedup_le (l : List String) : (pydedup l).length ≤ l.length :=
  length_pydedupAux_le l []

theorem dictLookup_dictInsert_self {α : Type} (l : List (String × α)) (k : String) (v : α) :
    dictLookup (dictInsert l k v) k = some v := by
  unfold dictInsert
  by_cases h : l.any (fun p => p.1 == k)
  · simp only [if_pos h]
    rcases List.any_eq_true.1 h with ⟨p, hp, hpk⟩
    clear h
    induction l with
    | nil => cases hp
    | cons q l ih =>
      by_cases hq : q.1 == k
      · simp [dictLookup, List.find?, hq]
      · rcases List.mem_cons.1 hp with hp1 | hp1
        · exact absurd (hp1 ▸ hpk) (by simpa using hq)
        · simpa [dictLookup, List.find?, hq] using ih hp1
  · simp only [if_neg h]
    have hnone : l.find? (fun p => p.1 == k) = none :=
      List.find?_eq_none.2 fun x hx hpx =>
        h (List.any_eq_true.2 ⟨x, hx, hpx⟩)
    simp [dictLookup, List.find?_append, hnone, List.find?]

theorem dictLookup_dictInsert_ne {α : Type} (l : List (String × α)) (k k' : String) (v : α)
    (h : k' ≠ k) : dictLookup (dictInsert l k v) k' = dictLookup l k' := by
  unfold dictInsert
  by_cases hh : l.any (fun p => p.1 == k)
  · simp only [if_pos hh]
    clear hh
    induction l with
    | nil => rfl
    | cons q l ih =>
      by_cases hq : q.1 == k
      · have hqk : q.1 = k := by simpa using hq
        have : ¬ (k == k') = true := by simpa using (Ne.symm h)
        have hq' : ¬ (q.1 == k') = true := by simp [hqk]; exact fun hc => h hc.symm
        simp [dictLookup, List.find?, hq, this, hq'] at *
        exact ih
      · by_cases hq' : q.1 == k'
        · simp [dictLookup, List.find?, hq, hq']
        · simp [dictLookup, List.find?, hq, hq'] at *
          exact ih
  · simp only [if_neg hh]
    have : ¬ ((k, v).1 == k') = true := by simpa using (Ne.symm h)
    simp [dictLookup, List.find?_append, List.find?, this]

theorem mem_of_mem_dictInsert {α : Type} {l : List (String × α)} {k : String} {v : α}
    {q : String × α} (h : q ∈ dictInsert l k v) : q ∈ l ∨ q = (k, v) := by
  unfold dictInsert at h
  by_cases hh : l.any (fun p => p.1 == k)
  · rw [if_pos hh] at h
    rcases List.mem_map.1 h with ⟨p, hp, hpq⟩
    by_cases hpk : p.1 == k
    · right; rw [if_pos hpk] at hpq; exact hpq.symm
    · left; rw [if_neg hpk] at hpq; exact hpq ▸ hp
  · rw [if_neg hh] at h
    rcases List.mem_append.1 h with h1 | h1
    · exact Or.inl h1
    · right; simpa using h1

theorem keys_map_replace {α : Type} (l : List (String × α)) (k : String) (v : α) :
    (l.map (fun p => if p.1 == k then (k, v) else p)).map (fun p => p.1) =
      l.map (fun p => p.1) := by
  induction l with
  | nil => rfl
  | cons q l ih =>
    by_cases hq : q.1 == k
    · have hqe : q.1 = k := by simpa using hq
      simp only [List.map_cons, if_pos hq, ih]
      rw [hqe]
    · simp only [List.map_cons, if_neg hq, ih]

theorem keys_dictInsert {α : Type} (l : List (String × α)) (k : String) (v : α) :
    (dictInsert l k v).map (fun p => p.1) =
      if l.any (fun p => p.1 == k) then l.map (fun p => p.1)
      else l.map (fun p => p.1) ++ [k] := by
  unfold dictInsert
  by_cases hh : l.any (fun p => p.1 == k)
  · simp only [if_pos hh, keys_map_replace]
  · simp [if_neg hh]

theorem nodup_keys_dictInsert {α : Type} (l : List (String × α)) (k : String) (v : α)
    (h : (l.map (fun p => p.1)).Nodup) : ((dictInsert l k v).map (fun p => p.1)).Nodup := by
  rw [keys_dictInsert]
  by_cases hh : l.any (fun p => p.1 == k)
  · simpa [if_pos hh] using h
  · rw [if_neg hh]
    have hk : k ∉ l.map (fun p => p.1) := by
      intro hc
      rcases List.mem_map.1 hc with ⟨p, hp, hpk⟩
      exact hh (List.any_eq_true.2 ⟨p, hp, by simp [hpk]⟩)
    refine List.Nodup.append h (List.nodup_singleton k) ?_
    intro a ha hb
    have hak : a = k := by simpa using hb
    exact hk (hak ▸ ha)

theorem findSome?_eq_some_iff {α β : Type} (f : α → Option β) (b : β) :
    ∀ (l : List α), l.findSome? f = some b ↔
      ∃ l1 a l2, l = l1 ++ a :: l2 ∧ f a = some b ∧ ∀ x ∈ l1, f x = none := by
  intro l
  induction l with
  | nil => simp [List.findSome?]
  | cons x xs ih =>
    cases hx : f x with
    | some c =>
      simp only [List.findSome?_cons, hx, Option.some_inj]
      constructor
      · intro h
        exact ⟨[], x, xs, rfl, h ▸ hx, by simp⟩
      · rintro ⟨l1, a, l2, heq, ha, hnone⟩
        cases l1 with
        | nil =>
          simp only [List.nil_append] at heq
          injection heq with h1 h2
          rw [h1, ha] at hx
          exact (Option.some_inj.1 hx).symm
        | cons y l1 =>
          simp only [List.cons_append] at heq
          injection heq with h1 h2
          have := hnone y (List.mem_cons_self y l1)
          rw [← h1, hx] at this
          cases this
    | none =>
      simp only [List.findSome?_cons, hx, ih]
      constructor
      · rintro ⟨l1, a, l2, heq, ha, hnone⟩
        refine ⟨x :: l1, a, l2, by rw [heq]; rfl, ha, ?_⟩
        intro y hy
        rcases List.mem_cons.1 hy with hy1 | hy1
        · exact hy1 ▸ hx
        · exact hnone y hy1
      · rintro ⟨l1, a, l2, heq, ha, hnone⟩
        cases l1 with
        | nil =>
          simp only [List.nil_append] at heq
          injection heq with h1 h2
          rw [h1, ha] at hx
          cases hx
        | cons y l1 =>
          simp only [List.cons_append] at heq
          injection heq with h1 h2
          exact ⟨l1, a, l2, h2, ha, fun z hz => hnone z (List.mem_cons_of_mem y hz)⟩

theorem toNat_lowerChar (c : Char) :
    (lowerChar c).toNat = if 65 ≤ c.toNat ∧ c.toNat ≤ 90 then c.toNat + 32 else c.toNat := by
  unfold lowerChar
  by_cases h : 65 ≤ c.toNat ∧ c.toNat ≤ 90
  · have hv : (c.toNat + 32).isValidChar := Or.inl (by omega)
    simp only [if_pos h, decide_eq_true h.1, decide_eq_true h.2, Bool.and_self]
    show (Char.ofNat (c.toNat + 32)).toNat = c.toNat + 32
    simp [Char.ofNat, hv]
    rfl
  · have hb : ¬ ((65 ≤ c.toNat : Bool) && (c.toNat ≤ 90 : Bool)) = true := by
      simpa [Bool.and_eq_true, decide_eq_true_eq] using h
    simp only [if_neg h, if_neg hb]

theorem isAlnum_lowerChar (c : Char) : isAlnumChar (lowerChar c) = isAlnumChar c := by
  rw [Bool.eq_iff_iff]
  simp only [isAlnumChar, toNat_lowerChar c, Bool.or_eq_true, Bool.and_eq_true,
    decide_eq_true_eq]
  by_cases h : 65 ≤ c.toNat ∧ c.toNat ≤ 90
  · rw [if_pos h]; omega
  · rw [if_neg h]

theorem filter_map_lowerChar (l : List Char) :
    (l.map lowerChar).filter isAlnumChar = (l.filter isAlnumChar).map lowerChar := by
  induction l with
  | nil => rfl
  | cons c cs ih =>
    simp only [List.map_cons, List.filter_cons, isAlnum_lowerChar c]
    by_cases h : isAlnumChar c
    · simp only [if_pos h, List.map_cons, ih]
    · simp only [if_neg h, ih]

theorem normCore_comm (s : String) :
    normCore s = String.mk ((s.data.filter isAlnumChar).map lowerChar) :=
  congrArg String.mk (filter_map_lowerChar s.data)

/-- C1: for every checked column the validator flags a cell exactly when its
normalized form is nonempty and outside the normalized acceptable set; the
normalization lowercases and keeps only ASCII letters and digits (in either
order); missing and empty cells normalize to the empty string and are never
flagged; and a string normalizing like some acceptable term is never flagged. -/
theorem C1_offending_characterization (A : List String) (cell : Cell)
    (concepts : Concepts) (cat : String) (t s : String) :
    (isOffendingCell A cell = true ↔
        normalize_value cell ≠ "" ∧ normalize_value cell ∉ A)
    ∧ isOffendingCell A none = false
    ∧ isOffendingCell A (some "") = false
    ∧ normCore s = String.mk ((s.data.filter isAlnumChar).map lowerChar)
    ∧ (t ∈ acceptableRaw concepts cat →
        normalize_value (some s) = normalize_value (some t) →
        isOffendingCell (acceptableNorm concepts cat) (some s) = false) := by
  refine ⟨?_, ?_, ?_, normCore_comm s, ?_⟩
  · unfold isOffendingCell
    rw [Bool.and_eq_true]
    constructor
    · intro ⟨h1, h2⟩
      have hne : normalize_value cell ≠ "" := by
        intro he
        rw [he] at h2
        simp at h2
      refine ⟨hne, fun hc => ?_⟩
      rw [(contains_iff_mem A _).2 hc] at h1
      simp at h1
    · intro ⟨h1, h2⟩
      constructor
      · cases hcon : A.contains (normalize_value cell)
        · rfl
        · exact absurd ((contains_iff_mem A _).1 hcon) h2
      · simpa using h1
  · simp [isOffendingCell, normalize_value]
  · simp [isOffendingCell, normalize_value]
  · intro ht heq
    have hmem : normalize_value (some s) ∈ acceptableNorm concepts cat := by
      rw [heq]
      exact (mem_pydedup _ _).2 (List.mem_map.2 ⟨t, ht, rfl⟩)
    have hc : (acceptableNorm concepts cat).contains (normalize_value (some s)) = true :=
      (contains_iff_mem _ _).2 hmem
    unfold isOffendingCell
    rw [hc]
    rfl

/-- Witness for C1 at a concrete input: Stone-Age normalizes like the
acceptable term Stone Age and is not flagged. -/
theorem C1_offending_characterization_witness :
    ("Stone Age" ∈ acceptableRaw exConceptsA "Material Type"
      ∧ normalize_value (some "Stone-Age") = normalize_value (some "Stone Age"))
    ∧ isOffendingCell (acceptableNorm exConceptsA "Material Type") (some "Stone-Age") = false :=
  ⟨⟨by decide, by decide⟩,
    (C1_offending_characterization [] none exConceptsA "Material Type"
        "Stone Age" "Stone-Age").2.2.2.2 (by decide) (by decide)⟩

/-! Category resolution (claim C5). -/

theorem any_key_iff_mem_keys (concepts : Concepts) (label : String) :
    concepts.any (fun p => p.1 == label) = true ↔ label ∈ concepts.map (fun p => p.1) := by
  rw [List.any_eq_true]
  constructor
  · rintro ⟨p, hp, hpl⟩
    exact List.mem_map.2 ⟨p, hp, by simpa using hpl⟩
  · intro h
    rcases List.mem_map.1 h with ⟨p, hp, hpl⟩
    exact ⟨p, hp, by simpa using hpl⟩

/-- C5: category resolution returns the label itself on an exact key match;
otherwise the first catalog key, in catalog order, whose lowercased form is a
substring of the lowercased label or conversely; nothing when no key
qualifies; and an empty label always resolves to nothing. -/
theorem C5_find_concept_category (concepts : Concepts) (label : String) :
    find_concept_category "" concepts = none
    ∧ (label ≠ "" → label ∈ concepts.map (fun p => p.1) →
        find_concept_category label concepts = some label)
    ∧ (label ≠ "" → label ∉ concepts.map (fun p => p.1) →
        ∀ k, (find_concept_category label concepts = some k ↔
          ∃ pre q post, concepts = pre ++ q :: post ∧ q.1 = k ∧
            categoryMatches label k = true ∧
            ∀ q2 ∈ pre, categoryMatches label q2.1 = false))
    ∧ (label ≠ "" → label ∉ concepts.map (fun p => p.1) →
        (find_concept_category label concepts = none ↔
          ∀ q ∈ concepts, categoryMatches label q.1 = false)) := by
  refine ⟨by simp [find_concept_category], ?_, ?_, ?_⟩
  · intro h hmem
    have h0 : (label == "") = false := by simpa using h
    have hany : concepts.any (fun p => p.1 == label) = true :=
      (any_key_iff_mem_keys concepts label).2 hmem
    simp [find_concept_category, h0, hany]
  · intro h hmem k
    have h0 : (label == "") = false := by simpa using h
    have hany : concepts.any (fun p => p.1 == label) = false := by
      cases ha : concepts.any (fun p => p.1 == label)
      · rfl
      · exact absurd ((any_key_iff_mem_keys concepts label).1 ha) hmem
    rw [find_concept_category, if_neg (by simp [h0]), if_neg (by simp [hany]),
      findSome?_eq_some_iff]
    constructor
    · rintro ⟨pre, q, post, heq, hq, hnone⟩
      by_cases hm : categoryMatches label q.1
      · rw [if_pos hm] at hq
        have hqk : q.1 = k := by simpa using hq
        refine ⟨pre, q, post, heq, hqk, hqk ▸ hm, ?_⟩
        intro q2 hq2
        have := hnone q2 hq2
        by_cases hm2 : categoryMatches label q2.1
        · rw [if_pos hm2] at this; cases this
        · simpa using hm2
      · rw [if_neg hm] at hq; cases hq
    · rintro ⟨pre, q, post, heq, hqk, hm, hpre⟩
      refine ⟨pre, q, post, heq, ?_, ?_⟩
      · rw [if_pos (hqk ▸ hm), hqk]
      · intro q2 hq2
        rw [if_neg (by simp [hpre q2 hq2])]
  · intro h hmem
    have h0 : (label == "") = false := by simpa using h
    have hany : concepts.any (fun p => p.1 == label) = false := by
      cases ha : concepts.any (fun p => p.1 == label)
      · rfl
      · exact absurd ((any_key_iff_mem_keys concepts label).1 ha) hmem
    rw [find_concept_category, if_neg (by simp [h0]), if_neg (by simp [hany]),
      List.findSome?_eq_none_iff]
    constructor
    · intro hall q hq
      have := hall q hq
      by_cases hm : categoryMatches label q.1
      · rw [if_pos hm] at this; cases this
      · simpa using hm
    · intro hall q hq
      rw [if_neg (by simp [hall q hq])]

/-- Witness for C5 at concrete inputs: an exact key match wins, and a label
without an exact match takes the first substring match in catalog order. -/
theorem C5_find_concept_category_witness :
    find_concept_category "Site" exConceptsB = some "Site"
    ∧ find_concept_category "Regional Site" exConceptsB = some "Site" :=
  ⟨(C5_find_concept_category exConceptsB "Site").2.1 (by decide) (by decide),
    ((C5_find_concept_category exConceptsB "Regional Site").2.2.1 (by decide)
        (by decide) "Site").2
      ⟨[("Site Type", [("1", "Settlement")])], ("Site", [("1", "Cave")]), [],
        by decide, by decide, by decide⟩⟩

/-! Field index keyed by node name (claim C10). -/

theorem conceptNodeStep_lookup (name : String) :
    ∀ (nodes : List RNode) (acc : List (String × NodeColInfo)),
      dictLookup (nodes.foldl conceptNodeStep acc) name =
        ((nodes.filter (fun nd => isConceptDatatype nd.datatype &&
            (nd.name.getD "" == name))).getLast?.map
          (fun nd => (⟨nd.nodeid.getD "", configRdmCollection nd.config⟩ : NodeColInfo))).or
          (dictLookup acc name) := by
  intro nodes
  induction nodes with
  | nil => intro acc; rfl
  | cons nd rest ih =>
    intro acc
    by_cases hc : isConceptDatatype nd.datatype
    · by_cases hn : (nd.name.getD "" == name) = true
      · have hkey : nd.name.getD "" = name := by simpa using hn
        rw [List.foldl_cons, List.filter_cons, if_pos (by simp [hc, hn]),
          List.getLast?_cons]
        have hstep : conceptNodeStep acc nd =
            dictInsert acc (nd.name.getD "")
              ⟨nd.nodeid.getD "", configRdmCollection nd.config⟩ := by
          simp [conceptNodeStep, hc]
        rw [hstep, ih]
        rw [hkey, dictLookup_dictInsert_self]
        cases hlast : (rest.filter (fun nd2 => isConceptDatatype nd2.datatype &&
            (nd2.name.getD "" == name))).getLast? with
        | none => rfl
        | some x => rfl
      · rw [List.foldl_cons, List.filter_cons, if_neg (by simp [hn])]
        have hkey : name ≠ nd.name.getD "" := fun he => hn (by simp [he])
        have hstep : conceptNodeStep acc nd =
            dictInsert acc (nd.name.getD "")
              ⟨nd.nodeid.getD "", configRdmCollection nd.config⟩ := by
          simp [conceptNodeStep, hc]
        rw [hstep, ih, dictLookup_dictInsert_ne _ _ _ _ hkey]
    · rw [List.foldl_cons, List.filter_cons, if_neg (by simp [hc])]
      have hstep : conceptNodeStep acc nd = acc := by simp [conceptNodeStep, hc]
      rw [hstep, ih]

theorem conceptNodeStep_keys_nodup :
    ∀ (nodes : List RNode) (acc : List (String × NodeColInfo)),
      ((acc.map (fun p => p.1)).Nodup) →
      (((nodes.foldl conceptNodeStep acc).map (fun p => p.1)).Nodup) := by
  intro nodes
  induction nodes with
  | nil => intro acc h; exact h
  | cons nd rest ih =>
    intro acc h
    rw [List.foldl_cons]
    refine ih _ ?_
    unfold conceptNodeStep
    by_cases hc : isConceptDatatype nd.datatype
    · rw [if_pos hc]
      exact nodup_keys_dictInsert _ _ _ h
    · rw [if_neg hc]
      exact h

/-- C10: the field index of get_concept_nodes_with_collections is keyed by
node name, so a lookup returns the data of the last vocabulary-bearing node
with that name in graph order, and the index holds one entry per name:
earlier same-named nodes are overwritten and contribute no entry. -/
theorem C10_last_same_named_node_wins (rm : ResourceModel) (name : String) :
    dictLookup (get_concept_nodes_with_collections rm) name =
      ((rm.nodes.filter (fun nd => isConceptDatatype nd.datatype &&
          (nd.name.getD "" == name))).getLast?.map
        (fun nd => (⟨nd.nodeid.getD "", configRdmCollection nd.config⟩ : NodeColInfo)))
    ∧ ((get_concept_nodes_with_collections rm).map (fun p => p.1)).Nodup := by
  constructor
  · rw [get_concept_nodes_with_collections, conceptNodeStep_lookup]
    show Option.or _ none = _
    cases hlast : (rm.nodes.filter (fun nd => isConceptDatatype nd.datatype &&
        (nd.name.getD "" == name))).getLast? with
    | none => rfl
    | some x => rfl
  · exact conceptNodeStep_keys_nodup rm.nodes [] (by simp)

/-! Missing and malformed thesaurus documents (claims C6, C7). -/

/-- C6: a missing thesaurus document yields the empty index plus a warning
panel instead of an aborting failure, and every resulting concept mapping
then carries a falsy collection label, a falsy label id, no category, and no
acceptable concepts. -/
theorem C6_missing_thesaurus (rm : ResourceModel) (concepts : Concepts) :
    parse_collections_xml XmlFile.missing = ([], some ParseMsg.warnMissing)
    ∧ ∀ n m, (n, m) ∈ build_concept_mappings rm concepts XmlFile.missing →
        truthyOpt m.collection_label = false ∧ truthyOpt m.collection_label_id = false
        ∧ m.concept_category = none ∧ m.available_concepts = [] := by
  refine ⟨rfl, ?_⟩
  have hstep : ∀ (pairs : List (String × NodeColInfo)) (acc : List (String × CMapping)),
      (∀ q ∈ acc, truthyOpt q.2.collection_label = false
        ∧ truthyOpt q.2.collection_label_id = false
        ∧ q.2.concept_category = none ∧ q.2.available_concepts = []) →
      ∀ q ∈ pairs.foldl (buildMappingStep [] concepts) acc,
        truthyOpt q.2.collection_label = false
        ∧ truthyOpt q.2.collection_label_id = false
        ∧ q.2.concept_category = none ∧ q.2.available_concepts = [] := by
    intro pairs
    induction pairs with
    | nil => intro acc h; exact h
    | cons p rest ih =>
      intro acc h
      rw [List.foldl_cons]
      refine ih _ ?_
      intro q hq
      have hval : ∀ (k : String) (m : CMapping),
          (truthyOpt m.collection_label = false ∧ truthyOpt m.collection_label_id = false
            ∧ m.concept_category = none ∧ m.available_concepts = []) →
          q ∈ dictInsert acc k m →
          truthyOpt q.2.collection_label = false
            ∧ truthyOpt q.2.collection_label_id = false
            ∧ q.2.concept_category = none ∧ q.2.available_concepts = [] := by
        intro k m hm hq2
        rcases mem_of_mem_dictInsert hq2 with h1 | h1
        · exact h q h1
        · rw [h1]; exact hm
      revert hq
      rcases p with ⟨pname, pid, puuid⟩
      intro hq
      cases puuid with
      | none =>
        exact hval _ _ (by simp [truthyOpt]) hq
      | some uuid =>
        simp only [buildMappingStep] at hq
        by_cases hu : (uuid == "") = true
        · rw [if_pos hu] at hq
          exact hval _ _ (by simp [truthyOpt]) hq
        · rw [if_neg hu] at hq
          refine hval _ _ ?_ hq
          refine ⟨by simp [dictLookup, truthyOpt], by simp [dictLookup, truthyOpt], ?_, ?_⟩
          · simp [dictLookup, find_concept_category]
          · simp [dictLookup, find_concept_category, truthyOpt]
  intro n m hm
  exact hstep _ [] (by simp) (n, m) hm

/-- Witness for C6 at a concrete input: the single bound field of exRM1
resolves to an all-absent mapping when the thesaurus file is missing. -/
theorem C6_missing_thesaurus_witness :
    (("material",
        (⟨"n1", some "u1", some "", some "", none, []⟩ : CMapping)) ∈
      build_concept_mappings exRM1 exConceptsA XmlFile.missing)
    ∧ truthyOpt (some "") = false :=
  ⟨by decide,
    ((C6_missing_thesaurus exRM1 exConceptsA).2 "material"
        ⟨"n1", some "u1", some "", some "", none, []⟩ (by decide)).1⟩

/-- C7 counterexample: a malformed document does not fail the build with a
caller-visible signal; parse_collections_xml catches the parse error and
returns exactly the empty dictionary of the missing-file case, so the
downstream mappings coincide. -/
theorem C7_counterexample_same_empty_index :
    (parse_collections_xml XmlFile.malformed).1 = []
    ∧ (parse_collections_xml XmlFile.malformed).1 = (parse_collections_xml XmlFile.missing).1
    ∧ build_concept_mappings exRM1 exConceptsA XmlFile.malformed
        = build_concept_mappings exRM1 exConceptsA XmlFile.missing :=
  ⟨rfl, rfl, rfl⟩

/-- C7 amended: on a malformed document the parse prints an error panel
(distinct from the missing-file warning panel) but returns the same empty
index as the missing-document case; the calling code receives no
distinguishable failure value and downstream behaves identically. -/
theorem C7_malformed_behaviour (rm : ResourceModel) (concepts : Concepts) :
    parse_collections_xml XmlFile.malformed = ([], some ParseMsg.errMalformed)
    ∧ ParseMsg.errMalformed ≠ ParseMsg.warnMissing
    ∧ build_concept_mappings rm concepts XmlFile.malformed
        = build_concept_mappings rm concepts XmlFile.missing :=
  ⟨rfl, by decide, rfl⟩

/-! Column access lemmas for the validator loop. -/

theorem keys_colSet : ∀ (cols : List (String × List Cell)) (name : String) (vals : List Cell),
    (colSet cols name vals).map (fun p => p.1) = cols.map (fun p => p.1) := by
  intro cols
  induction cols with
  | nil => intro name vals; rfl
  | cons p rest ih =>
    intro name vals
    unfold colSet
    by_cases h : p.1 == name
    · rw [if_pos h]; rfl
    · rw [if_neg h]
      simp only [List.map_cons, ih]

theorem findMatchingColumn_eq_find_keys (cols : List (String × List Cell)) (n : String) :
    findMatchingColumn cols n =
      (cols.map (fun p => p.1)).find? (fun a => pyLower a == pyLower n) := by
  induction cols with
  | nil => rfl
  | cons p rest ih =>
    unfold findMatchingColumn at *
    by_cases h : pyLower p.1 == pyLower n
    · simp only [List.map_cons, List.find?, h]; rfl
    · simp only [List.map_cons, List.find?, h] at *
      exact ih

theorem findMatchingColumn_of_keys_eq {cols1 cols2 : List (String × List Cell)}
    (h : cols1.map (fun p => p.1) = cols2.map (fun p => p.1)) (n : String) :
    findMatchingColumn cols1 n = findMatchingColumn cols2 n := by
  rw [findMatchingColumn_eq_find_keys, findMatchingColumn_eq_find_keys, h]

theorem findMatchingColumn_some_props {cols : List (String × List Cell)}
    {n mc : String} (h : findMatchingColumn cols n = some mc) :
    mc ∈ cols.map (fun p => p.1) ∧ pyLower mc = pyLower n := by
  unfold findMatchingColumn at h
  cases hf : cols.find? (fun p => pyLower p.1 == pyLower n) with
  | none => rw [hf] at h; cases h
  | some p =>
    rw [hf] at h
    have hp : p.1 = mc := by simpa using h
    have hmem := List.mem_of_find?_eq_some hf
    have hpred := List.find?_some hf
    exact ⟨hp ▸ List.mem_map.2 ⟨p, hmem, rfl⟩, hp ▸ (by simpa using hpred)⟩

theorem colGet_colSet_self : ∀ (cols : List (String × List Cell)) (name : String)
    (vals : List Cell), name ∈ cols.map (fun p => p.1) →
    colGet (colSet cols name vals) name = vals := by
  intro cols
  induction cols with
  | nil => intro name vals h; cases h
  | cons p rest ih =>
    intro name vals h
    unfold colSet
    by_cases hp : p.1 == name
    · rw [if_pos hp]
      have : p.1 = name := by simpa using hp
      simp [colGet, List.find?, this]
    · rw [if_neg hp]
      have hne : ¬ (p.1 == name) = true := hp
      rcases List.mem_map.1 h with ⟨q, hq, hqn⟩
      rcases List.mem_cons.1 hq with h1 | h1
      · exact absurd (beq_iff_eq.2 (h1 ▸ hqn : p.1 = name)) hne
      · have hmem : name ∈ rest.map (fun p => p.1) := List.mem_map.2 ⟨q, h1, hqn⟩
        simp only [colGet, List.find?, hne]
        have := ih name vals hmem
        simpa [colGet] using this

theorem colGet_colSet_ne : ∀ (cols : List (String × List Cell)) (name name2 : String)
    (vals : List Cell), name2 ≠ name →
    colGet (colSet cols name vals) name2 = colGet cols name2 := by
  intro cols
  induction cols with
  | nil => intro name name2 vals h; rfl
  | cons p rest ih =>
    intro name name2 vals h
    unfold colSet
    by_cases hp : p.1 == name
    · rw [if_pos hp]
      have hpn : p.1 = name := by simpa using hp
      have hne : ¬ (p.1 == name2) = true := by
        simp only [beq_iff_eq, hpn]
        exact fun he => h he.symm
      simp [colGet, List.find?, hne]
    · rw [if_neg hp]
      by_cases hq : p.1 == name2
      · simp [colGet, List.find?, hq]
      · simp only [colGet, List.find?, hq]
        have := ih name name2 vals h
        simpa [colGet] using this

/-! Characterizations of one validator loop iteration. -/

theorem vstep_of_no_match {concepts : Concepts} {s : VState} {pair : String × String}
    (h : findMatchingColumn s.cols pair.1 = none) : vstep concepts s pair = s := by
  unfold vstep
  rw [h]

theorem vstep_of_empty_match {concepts : Concepts} {s : VState} {pair : String × String}
    (h : findMatchingColumn s.cols pair.1 = some "") : vstep concepts s pair = s := by
  unfold vstep
  rw [h]
  rfl

theorem vstep_of_match {concepts : Concepts} {s : VState} {pair : String × String}
    {mc : String} (h : findMatchingColumn s.cols pair.1 = some mc) (hmc : mc ≠ "") :
    vstep concepts s pair = vstepProcess concepts s pair.2 mc := by
  unfold vstep
  rw [h]
  have hbe : (mc == "") = false := by simpa using hmc
  show (if (mc == "") = true then s else vstepProcess concepts s pair.2 mc) = _
  rw [hbe]
  rfl

theorem vstepProcess_of_offending {concepts : Concepts} {s : VState} {cat mc : String}
    (h : (colGet s.cols mc).any (isOffendingCell (acceptableNorm concepts cat)) = true) :
    vstepProcess concepts s cat mc =
      ⟨colSet s.cols mc
          ((colGet s.cols mc).map
            (fun c => if isOffendingCell (acceptableNorm concepts cat) c then some "" else c)),
        s.columns_checked ++ [mc],
        s.offending_values_found +
          ((colGet s.cols mc).filter (isOffendingCell (acceptableNorm concepts cat))).length,
        s.offending_values_removed +
          ((colGet s.cols mc).filter (isOffendingCell (acceptableNorm concepts cat))).length,
        dictInsert s.details mc
          ⟨cat,
            ((colGet s.cols mc).filter (isOffendingCell (acceptableNorm concepts cat))).length,
            pydedup (offendingRaw (acceptableNorm concepts cat) (colGet s.cols mc)),
            (acceptableRaw concepts cat).length,
            (acceptableRaw concepts cat).take 5⟩⟩ := by
  unfold vstepProcess
  rw [if_pos h]

theorem vstepProcess_of_clean {concepts : Concepts} {s : VState} {cat mc : String}
    (h : (colGet s.cols mc).any (isOffendingCell (acceptableNorm concepts cat)) = false) :
    vstepProcess concepts s cat mc =
      ⟨s.cols, s.columns_checked ++ [mc], s.offending_values_found,
        s.offending_values_removed, s.details⟩ := by
  unfold vstepProcess
  rw [if_neg (by simp [h])]

theorem vstep_keys (concepts : Concepts) (s : VState) (pair : String × String) :
    ((vstep concepts s pair).cols).map (fun p => p.1) = s.cols.map (fun p => p.1) := by
  cases hm : findMatchingColumn s.cols pair.1 with
  | none => rw [vstep_of_no_match hm]
  | some mc =>
    by_cases hmc : mc = ""
    · rw [hmc] at hm
      rw [vstep_of_empty_match hm]
    · rw [vstep_of_match hm hmc]
      cases ha : (colGet s.cols mc).any (isOffendingCell (acceptableNorm concepts pair.2)) with
      | true => rw [vstepProcess_of_offending ha]; exact keys_colSet _ _ _
      | false => rw [vstepProcess_of_clean ha]

theorem foldl_vstep_keys (concepts : Concepts) :
    ∀ (L : List (String × String)) (s : VState),
      ((L.foldl (vstep concepts) s).cols).map (fun p => p.1) = s.cols.map (fun p => p.1) := by
  intro L
  induction L with
  | nil => intro s; rfl
  | cons p rest ih =>
    intro s
    rw [List.foldl_cons, ih, vstep_keys]

/-! Cell evolution under cleaning, and column cleanliness (claim C3). -/

theorem cellRel_refl (a : Cell) : CellRel a a := Or.inl rfl

theorem cellRel_trans {a b c : Cell} (h1 : CellRel a b) (h2 : CellRel b c) : CellRel a c := by
  rcases h2 with h2 | h2
  · rcases h1 with h1 | h1
    · exact Or.inl (h2.trans h1)
    · exact Or.inr (h2.trans h1)
  · exact Or.inr h2

theorem forall₂_cellRel_refl (l : List Cell) : List.Forall₂ CellRel l l := by
  induction l with
  | nil => exact List.Forall₂.nil
  | cons a l ih => exact List.Forall₂.cons (cellRel_refl a) ih

theorem forall₂_cellRel_trans : ∀ {l1 l2 l3 : List Cell},
    List.Forall₂ CellRel l1 l2 → List.Forall₂ CellRel l2 l3 →
    List.Forall₂ CellRel l1 l3 := by
  intro l1 l2 l3 h1
  induction h1 generalizing l3 with
  | nil => intro h2; cases h2; exact List.Forall₂.nil
  | cons hab htl ih =>
    intro h2
    cases h2 with
    | cons hbc h2tl => exact List.Forall₂.cons (cellRel_trans hab hbc) (ih h2tl)

theorem forall₂_cellRel_map_clean (A : List String) (l : List Cell) :
    List.Forall₂ CellRel l
      (l.map (fun c => if isOffendingCell A c then some "" else c)) := by
  induction l with
  | nil => exact List.Forall₂.nil
  | cons a l ih =>
    refine List.Forall₂.cons ?_ ih
    by_cases h : isOffendingCell A a = true
    · refine Or.inr ?_
      show (if isOffendingCell A a = true then (some "" : Cell) else a) = some ""
      rw [if_pos h]
    · refine Or.inl ?_
      show (if isOffendingCell A a = true then (some "" : Cell) else a) = a
      rw [if_neg h]

theorem isOffendingCell_some_empty (A : List String) :
    isOffendingCell A (some "") = false := by
  simp [isOffendingCell, normalize_value]

theorem isOffendingCell_eq_false_of_not {A : List String} {c : Cell}
    (h : ¬ isOffendingCell A c = true) : isOffendingCell A c = false := by
  cases hb : isOffendingCell A c
  · rfl
  · exact absurd hb h

theorem cleanCol_of_rel {A : List String} : ∀ {l1 l2 : List Cell},
    List.Forall₂ CellRel l1 l2 → cleanCol A l1 → cleanCol A l2 := by
  intro l1 l2 h
  induction h with
  | nil => intro _ c hcm; cases hcm
  | cons hab htl ih =>
    intro hc c hcm
    rcases List.mem_cons.1 hcm with h1 | h1
    · rcases hab with h2 | h2
      · rw [h1, h2]
        exact hc _ (List.mem_cons_self _ _)
      · rw [h1, h2]
        exact isOffendingCell_some_empty A
    · exact ih (fun c2 hc2 => hc c2 (List.mem_cons_of_mem _ hc2)) c h1

theorem vstep_colGet_rel (concepts : Concepts) (s : VState) (pair : String × String)
    (name : String) :
    List.Forall₂ CellRel (colGet s.cols name)
      (colGet (vstep concepts s pair).cols name) := by
  cases hm : findMatchingColumn s.cols pair.1 with
  | none =>
    rw [vstep_of_no_match hm]
    exact forall₂_cellRel_refl _
  | some mc =>
    by_cases hmc : mc = ""
    · rw [hmc] at hm
      rw [vstep_of_empty_match hm]
      exact forall₂_cellRel_refl _
    · rw [vstep_of_match hm hmc]
      cases ha : (colGet s.cols mc).any (isOffendingCell (acceptableNorm concepts pair.2)) with
      | false =>
        rw [vstepProcess_of_clean ha]
        exact forall₂_cellRel_refl _
      | true =>
        rw [vstepProcess_of_offending ha]
        by_cases hname : name = mc
        · subst hname
          show List.Forall₂ CellRel (colGet s.cols name) (colGet (colSet s.cols name _) name)
          rw [colGet_colSet_self _ _ _ (findMatchingColumn_some_props hm).1]
          exact forall₂_cellRel_map_clean _ _
        · show List.Forall₂ CellRel (colGet s.cols name) (colGet (colSet s.cols mc _) name)
          rw [colGet_colSet_ne _ _ _ _ hname]
          exact forall₂_cellRel_refl _

theorem foldl_vstep_colGet_rel (concepts : Concepts) :
    ∀ (L : List (String × String)) (s : VState) (name : String),
      List.Forall₂ CellRel (colGet s.cols name)
        (colGet ((L.foldl (vstep concepts) s)).cols name) := by
  intro L
  induction L with
  | nil => intro s name; exact forall₂_cellRel_refl _
  | cons p rest ih =>
    intro s name
    rw [List.foldl_cons]
    exact forall₂_cellRel_trans (vstep_colGet_rel concepts s p name)
      (ih (vstep concepts s p) name)

theorem vstepProcess_clean_after (concepts : Concepts) (s : VState) (cat mc : String)
    (hmem : mc ∈ s.cols.map (fun p => p.1)) :
    cleanCol (acceptableNorm concepts cat)
      (colGet (vstepProcess concepts s cat mc).cols mc) := by
  cases ha : (colGet s.cols mc).any (isOffendingCell (acceptableNorm concepts cat)) with
  | false =>
    rw [vstepProcess_of_clean ha]
    intro c hcm
    refine isOffendingCell_eq_false_of_not (fun hb => ?_)
    have hany : (colGet s.cols mc).any (isOffendingCell (acceptableNorm concepts cat)) = true :=
      List.any_eq_true.2 ⟨c, hcm, hb⟩
    rw [ha] at hany
    simp at hany
  | true =>
    rw [vstepProcess_of_offending ha]
    show cleanCol _ (colGet (colSet s.cols mc _) mc)
    rw [colGet_colSet_self _ _ _ hmem]
    intro c hcm
    rcases List.mem_map.1 hcm with ⟨c0, hc0, hceq⟩
    by_cases h0 : isOffendingCell (acceptableNorm concepts cat) c0 = true
    · rw [← hceq, if_pos h0]
      exact isOffendingCell_some_empty _
    · rw [← hceq, if_neg h0]
      exact isOffendingCell_eq_false_of_not h0

theorem foldl_vstep_clean_end (concepts : Concepts) :
    ∀ (L : List (String × String)) (s : VState) (p : String × String), p ∈ L →
      ∀ mc, findMatchingColumn ((L.foldl (vstep concepts) s)).cols p.1 = some mc →
      mc ≠ "" →
      cleanCol (acceptableNorm concepts p.2)
        (colGet ((L.foldl (vstep concepts) s)).cols mc) := by
  intro L
  induction L with
  | nil => intro s p hp; cases hp
  | cons q rest ih =>
    intro s p hp mc hfind hmc
    rw [List.foldl_cons] at hfind ⊢
    rcases List.mem_cons.1 hp with h1 | h1
    · subst h1
      have hkeys : ((rest.foldl (vstep concepts) (vstep concepts s p)).cols).map
            (fun c => c.1) = s.cols.map (fun c => c.1) :=
        (foldl_vstep_keys concepts rest (vstep concepts s p)).trans
          (vstep_keys concepts s p)
      have hfind_s : findMatchingColumn s.cols p.1 = some mc := by
        rw [← findMatchingColumn_of_keys_eq hkeys p.1]
        exact hfind
      have hclean : cleanCol (acceptableNorm concepts p.2)
          (colGet (vstep concepts s p).cols mc) := by
        rw [vstep_of_match hfind_s hmc]
        exact vstepProcess_clean_after concepts s p.2 mc
          (findMatchingColumn_some_props hfind_s).1
      exact cleanCol_of_rel
        (foldl_vstep_colGet_rel concepts rest (vstep concepts s p) mc) hclean
    · exact ih (vstep concepts s q) p h1 mc hfind hmc

theorem foldl_vstep_noop (concepts : Concepts) :
    ∀ (L : List (String × String)) (s : VState),
      (∀ p ∈ L, ∀ mc, findMatchingColumn s.cols p.1 = some mc → mc ≠ "" →
        cleanCol (acceptableNorm concepts p.2) (colGet s.cols mc)) →
      (L.foldl (vstep concepts) s).cols = s.cols
      ∧ (L.foldl (vstep concepts) s).offending_values_found = s.offending_values_found
      ∧ (L.foldl (vstep concepts) s).offending_values_removed = s.offending_values_removed
      ∧ (L.foldl (vstep concepts) s).details = s.details := by
  intro L
  induction L with
  | nil => intro s _; exact ⟨rfl, rfl, rfl, rfl⟩
  | cons p rest ih =>
    intro s h
    rw [List.foldl_cons]
    cases hm : findMatchingColumn s.cols p.1 with
    | none =>
      rw [vstep_of_no_match hm]
      exact ih s (fun q hq => h q (List.mem_cons_of_mem _ hq))
    | some mc =>
      by_cases hmc : mc = ""
      · rw [hmc] at hm
        rw [vstep_of_empty_match hm]
        exact ih s (fun q hq => h q (List.mem_cons_of_mem _ hq))
      · have hclean := h p (List.mem_cons_self _ _) mc hm hmc
        have hany : (colGet s.cols mc).any
            (isOffendingCell (acceptableNorm concepts p.2)) = false := by
          cases hb : (colGet s.cols mc).any (isOffendingCell (acceptableNorm concepts p.2))
          · rfl
          · rcases List.any_eq_true.1 hb with ⟨x, hx, hpx⟩
            rw [hclean x hx] at hpx
            cases hpx
        rw [vstep_of_match hm hmc, vstepProcess_of_clean hany]
        exact ih ⟨s.cols, s.columns_checked ++ [mc], s.offending_values_found,
            s.offending_values_removed, s.details⟩
          (fun q hq => h q (List.mem_cons_of_mem _ hq))

/-- C3: running the validator a second time on its own cleaned output, with
the same mappings, leaves the table unchanged and flags zero offending
values (no offense counts, no removals, no detail entries). -/
theorem C3_second_run_is_noop (df : DataFrame) (rm : ResourceModel)
    (concepts : Concepts) (xml : XmlFile) :
    (validate_and_clean_concept_values
        (validate_and_clean_concept_values df rm concepts xml).1 rm concepts xml).1
      = (validate_and_clean_concept_values df rm concepts xml).1
    ∧ (validate_and_clean_concept_values
        (validate_and_clean_concept_values df rm concepts xml).1 rm concepts xml).2.offending_values_found = 0
    ∧ (validate_and_clean_concept_values
        (validate_and_clean_concept_values df rm concepts xml).1 rm concepts xml).2.offending_values_removed = 0
    ∧ (validate_and_clean_concept_values
        (validate_and_clean_concept_values df rm concepts xml).1 rm concepts xml).2.details = [] := by
  have hnoop := foldl_vstep_noop concepts (column_to_concept rm concepts xml)
    ⟨((column_to_concept rm concepts xml).foldl (vstep concepts)
        ⟨df.cols, [], 0, 0, []⟩).cols, [], 0, 0, []⟩
    (fun p hp mc hfind hmc =>
      foldl_vstep_clean_end concepts (column_to_concept rm concepts xml)
        ⟨df.cols, [], 0, 0, []⟩ p hp mc hfind hmc)
  refine ⟨?_, ?_, ?_, ?_⟩
  · exact congrArg (DataFrame.mk df.nrows) hnoop.1
  · exact hnoop.2.1
  · exact hnoop.2.2.1
  · exact hnoop.2.2.2

/-! Conservativeness of the validator (claim C2). -/

theorem mem_column_to_concept {rm : ResourceModel} {concepts : Concepts} {xml : XmlFile}
    {n c : String} (h : (n, c) ∈ column_to_concept rm concepts xml) :
    ∃ m, (n, m) ∈ build_concept_mappings rm concepts xml ∧
      m.concept_category = some c ∧ c ≠ "" := by
  have haux : ∀ (pairs : List (String × CMapping)) (acc : List (String × String)),
      (∀ q ∈ acc, ∃ m, (q.1, m) ∈ build_concept_mappings rm concepts xml ∧
        m.concept_category = some q.2 ∧ q.2 ≠ "") →
      (∀ p ∈ pairs, p ∈ build_concept_mappings rm concepts xml) →
      ∀ q ∈ pairs.foldl columnToConceptStep acc,
        ∃ m, (q.1, m) ∈ build_concept_mappings rm concepts xml ∧
          m.concept_category = some q.2 ∧ q.2 ≠ "" := by
    intro pairs
    induction pairs with
    | nil => intro acc hacc _ q hq; exact hacc q hq
    | cons p rest ih =>
      intro acc hacc hsub q hq
      rw [List.foldl_cons] at hq
      refine ih _ ?_ (fun r hr => hsub r (List.mem_cons_of_mem _ hr)) q hq
      intro r hr
      revert hr
      rcases p with ⟨pn, m⟩
      intro hr
      cases hcat : m.concept_category with
      | none =>
        simp only [columnToConceptStep, hcat] at hr
        exact hacc r hr
      | some ccat =>
        simp only [columnToConceptStep, hcat] at hr
        by_cases hc : (ccat == "") = true
        · rw [if_pos hc] at hr
          exact hacc r hr
        · rw [if_neg hc] at hr
          rcases mem_of_mem_dictInsert hr with h1 | h1
          · exact hacc r h1
          · rw [h1]
            exact ⟨m, hsub (pn, m) (List.mem_cons_self _ _), hcat, by simpa using hc⟩
  exact haux (build_concept_mappings rm concepts xml) [] (by simp) (fun p hp => hp) (n, c) h

theorem vstep_frame (concepts : Concepts) (s : VState) (pair : String × String)
    (name : String) (h : pyLower name ≠ pyLower pair.1) :
    colGet (vstep concepts s pair).cols name = colGet s.cols name
    ∧ (name ∈ (vstep concepts s pair).columns_checked ↔ name ∈ s.columns_checked)
    ∧ dictLookup (vstep concepts s pair).details name = dictLookup s.details name := by
  cases hm : findMatchingColumn s.cols pair.1 with
  | none =>
    rw [vstep_of_no_match hm]
    exact ⟨rfl, Iff.rfl, rfl⟩
  | some mc =>
    by_cases hmc : mc = ""
    · rw [hmc] at hm
      rw [vstep_of_empty_match hm]
      exact ⟨rfl, Iff.rfl, rfl⟩
    · have hprops := findMatchingColumn_some_props hm
      have hne : name ≠ mc := fun he => h (he ▸ hprops.2)
      rw [vstep_of_match hm hmc]
      cases ha : (colGet s.cols mc).any (isOffendingCell (acceptableNorm concepts pair.2)) with
      | false =>
        rw [vstepProcess_of_clean ha]
        exact ⟨rfl, by simp [hne], rfl⟩
      | true =>
        rw [vstepProcess_of_offending ha]
        exact ⟨colGet_colSet_ne _ _ _ _ hne, by simp [hne],
          dictLookup_dictInsert_ne _ _ _ _ hne⟩

theorem foldl_vstep_frame (concepts : Concepts) :
    ∀ (L : List (String × String)) (s : VState) (name : String),
      (∀ p ∈ L, pyLower name ≠ pyLower p.1) →
      colGet (L.foldl (vstep concepts) s).cols name = colGet s.cols name
      ∧ (name ∈ (L.foldl (vstep concepts) s).columns_checked ↔ name ∈ s.columns_checked)
      ∧ dictLookup (L.foldl (vstep concepts) s).details name = dictLookup s.details name := by
  intro L
  induction L with
  | nil => intro s name _; exact ⟨rfl, Iff.rfl, rfl⟩
  | cons p rest ih =>
    intro s name h
    rw [List.foldl_cons]
    have hstep := vstep_frame concepts s p name (h p (List.mem_cons_self _ _))
    have hrest := ih (vstep concepts s p) name (fun q hq => h q (List.mem_cons_of_mem _ hq))
    exact ⟨hrest.1.trans hstep.1, hrest.2.1.trans hstep.2.1, hrest.2.2.trans hstep.2.2⟩

/-- C2 (amended): a field whose mapping has no truthy category contributes no
entry to the column dictionary, and a table column that no column-dictionary
entry matches case-insensitively is never modified, never checked, and gets
no detail entry; but the acceptable-set-empty half of the claim fails: with
an empty normalized acceptable set, every cell with a nonempty normalized
form is flagged. -/
theorem C2_conservativeness (rm : ResourceModel) (concepts : Concepts) (xml : XmlFile)
    (df : DataFrame) (name : String) :
    (∀ n c, (n, c) ∈ column_to_concept rm concepts xml →
        ∃ m, (n, m) ∈ build_concept_mappings rm concepts xml ∧
          m.concept_category = some c ∧ c ≠ "")
    ∧ ((∀ p ∈ column_to_concept rm concepts xml, pyLower name ≠ pyLower p.1) →
        colGet (validate_and_clean_concept_values df rm concepts xml).1.cols name
            = colGet df.cols name
          ∧ name ∉ (validate_and_clean_concept_values df rm concepts xml).2.columns_checked
          ∧ dictLookup (validate_and_clean_concept_values df rm concepts xml).2.details name
            = none)
    ∧ (∀ cell, isOffendingCell [] cell = !(normalize_value cell == "")) := by
  refine ⟨fun n c h => mem_column_to_concept h, fun h => ?_, fun cell => ?_⟩
  · have hf := foldl_vstep_frame concepts (column_to_concept rm concepts xml)
      ⟨df.cols, [], 0, 0, []⟩ name h
    refine ⟨hf.1, fun hc => ?_, hf.2.2⟩
    rw [show (validate_and_clean_concept_values df rm concepts xml).2.columns_checked =
        ((column_to_concept rm concepts xml).foldl (vstep concepts)
          ⟨df.cols, [], 0, 0, []⟩).columns_checked from rfl] at hc
    exact absurd (hf.2.1.1 hc) (by simp)
  · simp [isOffendingCell]

/-- Witness for C2 at a concrete input: with a missing thesaurus no field
resolves to a category, so the wood column is untouched and unreported. -/
theorem C2_conservativeness_witness :
    colGet (validate_and_clean_concept_values exDFwood exRM1 exConceptsA
        XmlFile.missing).1.cols "material" = colGet exDFwood.cols "material"
    ∧ "material" ∉ (validate_and_clean_concept_values exDFwood exRM1 exConceptsA
        XmlFile.missing).2.columns_checked
    ∧ dictLookup (validate_and_clean_concept_values exDFwood exRM1 exConceptsA
        XmlFile.missing).2.details "material" = none :=
  (C2_conservativeness exRM1 exConceptsA XmlFile.missing exDFwood "material").2.1
    (by decide)

/-- C2 counterexample: the resolved category Material has an empty acceptable
set, yet its column is modified (Wood is blanked) and it contributes one
offense, so an empty acceptable set is enforced as everything-offending, not
as no-constraint. -/
theorem C2_counterexample_empty_set_flags_everything :
    (dictLookup (build_concept_mappings exRM1 exConceptsEmptyCat exXmlMaterial)
        "material").map (fun m => (m.concept_category, m.available_concepts))
      = some (some "Material", [])
    ∧ (validate_and_clean_concept_values exDFwood exRM1 exConceptsEmptyCat
        exXmlMaterial).1.cols = [("material", [some ""])]
    ∧ (validate_and_clean_concept_values exDFwood exRM1 exConceptsEmptyCat
        exXmlMaterial).2.offending_values_found = 1 := by
  refine ⟨by decide, by decide, by decide⟩

/-! Count consistency of the validation report (claim C4). -/

theorem sumDetails_dictInsert_fresh {l : List (String × Detail)} {k : String} {v : Detail}
    (h : l.any (fun p => p.1 == k) = false) :
    sumDetails (dictInsert l k v) = sumDetails l + v.offending_count := by
  unfold dictInsert
  rw [if_neg (by simp [h])]
  simp [sumDetails]

theorem vstep_removed_eq_found (concepts : Concepts) (s : VState) (pair : String × String)
    (h : s.offending_values_removed = s.offending_values_found) :
    (vstep concepts s pair).offending_values_removed
      = (vstep concepts s pair).offending_values_found := by
  cases hm : findMatchingColumn s.cols pair.1 with
  | none => rw [vstep_of_no_match hm]; exact h
  | some mc =>
    by_cases hmc : mc = ""
    · rw [hmc] at hm; rw [vstep_of_empty_match hm]; exact h
    · rw [vstep_of_match hm hmc]
      cases ha : (colGet s.cols mc).any (isOffendingCell (acceptableNorm concepts pair.2)) with
      | false => rw [vstepProcess_of_clean ha]; exact h
      | true =>
        rw [vstepProcess_of_offending ha]
        show s.offending_values_removed + _ = s.offending_values_found + _
        rw [h]

theorem foldl_vstep_removed_eq_found (concepts : Concepts) :
    ∀ (L : List (String × String)) (s : VState),
      s.offending_values_removed = s.offending_values_found →
      (L.foldl (vstep concepts) s).offending_values_removed
        = (L.foldl (vstep concepts) s).offending_values_found := by
  intro L
  induction L with
  | nil => intro s h; exact h
  | cons p rest ih =>
    intro s h
    rw [List.foldl_cons]
    exact ih (vstep concepts s p) (vstep_removed_eq_found concepts s p h)

theorem foldl_vstep_found_eq_sumDetails (concepts : Concepts) :
    ∀ (L : List (String × String)) (s : VState),
      s.offending_values_found = sumDetails s.details →
      (∀ k, k ∈ s.details.map (fun p => p.1) → ∀ p ∈ L, pyLower k ≠ pyLower p.1) →
      L.Pairwise (fun p q => pyLower p.1 ≠ pyLower q.1) →
      (L.foldl (vstep concepts) s).offending_values_found
        = sumDetails (L.foldl (vstep concepts) s).details := by
  intro L
  induction L with
  | nil => intro s h _ _; exact h
  | cons p rest ih =>
    intro s h hk hpw
    rw [List.foldl_cons]
    rcases List.pairwise_cons.1 hpw with ⟨hhead, htail⟩
    cases hm : findMatchingColumn s.cols p.1 with
    | none =>
      rw [vstep_of_no_match hm]
      exact ih s h (fun k hk2 q hq => hk k hk2 q (List.mem_cons_of_mem _ hq)) htail
    | some mc =>
      by_cases hmc : mc = ""
      · rw [hmc] at hm
        rw [vstep_of_empty_match hm]
        exact ih s h (fun k hk2 q hq => hk k hk2 q (List.mem_cons_of_mem _ hq)) htail
      · have hprops := findMatchingColumn_some_props hm
        rw [vstep_of_match hm hmc]
        cases ha : (colGet s.cols mc).any
            (isOffendingCell (acceptableNorm concepts p.2)) with
        | false =>
          rw [vstepProcess_of_clean ha]
          exact ih _ h (fun k hk2 q hq => hk k hk2 q (List.mem_cons_of_mem _ hq)) htail
        | true =>
          rw [vstepProcess_of_offending ha]
          have hfresh : s.details.any (fun q2 => q2.1 == mc) = false := by
            cases hb : s.details.any (fun q2 => q2.1 == mc)
            · rfl
            · rcases List.any_eq_true.1 hb with ⟨q2, hq2, hq2mc⟩
              have hq2e : q2.1 = mc := by simpa using hq2mc
              have hne := hk q2.1 (List.mem_map.2 ⟨q2, hq2, rfl⟩) p
                (List.mem_cons_self _ _)
              rw [hq2e] at hne
              exact absurd hprops.2 hne
          refine ih _ ?_ ?_ htail
          · show s.offending_values_found + _ = sumDetails (dictInsert s.details mc _)
            rw [sumDetails_dictInsert_fresh hfresh, h]
          · intro k hk2 q hq
            show pyLower k ≠ pyLower q.1
            rw [show (dictInsert s.details mc
                ⟨p.2, ((colGet s.cols mc).filter
                    (isOffendingCell (acceptableNorm concepts p.2))).length,
                  pydedup (offendingRaw (acceptableNorm concepts p.2) (colGet s.cols mc)),
                  (acceptableRaw concepts p.2).length,
                  (acceptableRaw concepts p.2).take 5⟩).map (fun p2 => p2.1) =
              s.details.map (fun p2 => p2.1) ++ [mc] from by
                rw [keys_dictInsert]
                rw [if_neg (by simp [hfresh])]] at hk2
            rcases List.mem_append.1 hk2 with h1 | h1
            · exact hk k h1 q (List.mem_cons_of_mem _ hq)
            · have hkm : k = mc := by simpa using h1
              rw [hkm, hprops.2]
              exact hhead q hq

/-- C4 (amended): offending_values_removed always equals
offending_values_found, and when no two entries of the column dictionary have
case-insensitively equal field names (so no table column is processed twice),
offending_values_found also equals the sum of the per-column detail counts. -/
theorem C4_count_consistency (rm : ResourceModel) (concepts : Concepts) (xml : XmlFile)
    (df : DataFrame) :
    (validate_and_clean_concept_values df rm concepts xml).2.offending_values_removed
      = (validate_and_clean_concept_values df rm concepts xml).2.offending_values_found
    ∧ ((column_to_concept rm concepts xml).Pairwise
          (fun p q => pyLower p.1 ≠ pyLower q.1) →
        (validate_and_clean_concept_values df rm concepts xml).2.offending_values_found
          = sumDetails (validate_and_clean_concept_values df rm concepts xml).2.details) := by
  constructor
  · exact foldl_vstep_removed_eq_found concepts (column_to_concept rm concepts xml)
      ⟨df.cols, [], 0, 0, []⟩ rfl
  · intro hpw
    exact foldl_vstep_found_eq_sumDetails concepts (column_to_concept rm concepts xml)
      ⟨df.cols, [], 0, 0, []⟩ rfl (by simp) hpw

/-- Witness for C4 at a concrete input with a single checked column. -/
theorem C4_count_consistency_witness :
    (validate_and_clean_concept_values exDFwood exRM1 exConceptsMat
        exXmlMaterial).2.offending_values_found
      = sumDetails (validate_and_clean_concept_values exDFwood exRM1 exConceptsMat
        exXmlMaterial).2.details :=
  (C4_count_consistency exRM1 exConceptsMat exXmlMaterial exDFwood).2 (by decide)

/-- C4 counterexample: two field names equal up to case both match the table
column Material; the second pass overwrites the first detail entry, so the
total offense count is 2 while the detail counts sum to 1. -/
theorem C4_counterexample_duplicate_checked_column :
    (validate_and_clean_concept_values exDF2 exRM2 exConcepts2
        exXml2).2.offending_values_found = 2
    ∧ sumDetails (validate_and_clean_concept_values exDF2 exRM2 exConcepts2
        exXml2).2.details = 1
    ∧ (validate_and_clean_concept_values exDF2 exRM2 exConcepts2
        exXml2).2.columns_checked = ["Material", "Material"] :=
  ⟨by decide, by decide, by decide⟩

/-! Shape of the per-column detail entries (claims C8, C9). -/

theorem isOffendingCell_none (A : List String) : isOffendingCell A none = false := by
  simp [isOffendingCell, normalize_value]

theorem offendingRaw_length (A : List String) : ∀ (col : List Cell),
    (offendingRaw A col).length = (col.filter (isOffendingCell A)).length := by
  intro col
  induction col with
  | nil => rfl
  | cons c rest ih =>
    simp only [offendingRaw] at ih ⊢
    rw [List.filterMap_cons, List.filter_cons]
    cases c with
    | none =>
      rw [isOffendingCell_none A]
      simpa using ih
    | some v =>
      by_cases hv : isOffendingCell A (some v) = true
      · simp only [hv, if_true]
        simpa using ih
      · have hv2 : isOffendingCell A (some v) = false := isOffendingCell_eq_false_of_not hv
        simpa [hv2] using ih

theorem foldl_vstep_details_invariant (concepts : Concepts) :
    ∀ (L : List (String × String)) (s : VState),
      (∀ k d, (k, d) ∈ s.details → k ∈ s.columns_checked ∧ 1 ≤ d.offending_count
        ∧ d.offending_values.Nodup ∧ d.offending_values.length ≤ d.offending_count
        ∧ d.sample_acceptable_values.length ≤ 5) →
      ∀ k d, (k, d) ∈ (L.foldl (vstep concepts) s).details →
        k ∈ (L.foldl (vstep concepts) s).columns_checked ∧ 1 ≤ d.offending_count
        ∧ d.offending_values.Nodup ∧ d.offending_values.length ≤ d.offending_count
        ∧ d.sample_acceptable_values.length ≤ 5 := by
  intro L
  induction L with
  | nil => intro s h; exact h
  | cons p rest ih =>
    intro s h
    rw [List.foldl_cons]
    cases hm : findMatchingColumn s.cols p.1 with
    | none =>
      rw [vstep_of_no_match hm]
      exact ih s h
    | some mc =>
      by_cases hmc : mc = ""
      · rw [hmc] at hm
        rw [vstep_of_empty_match hm]
        exact ih s h
      · rw [vstep_of_match hm hmc]
        cases ha : (colGet s.cols mc).any
            (isOffendingCell (acceptableNorm concepts p.2)) with
        | false =>
          rw [vstepProcess_of_clean ha]
          refine ih _ (fun k d hkd => ?_)
          have := h k d hkd
          exact ⟨List.mem_append.2 (Or.inl this.1), this.2⟩
        | true =>
          rw [vstepProcess_of_offending ha]
          refine ih _ (fun k d hkd => ?_)
          rcases mem_of_mem_dictInsert hkd with h1 | h1
          · have := h k d h1
            exact ⟨List.mem_append.2 (Or.inl this.1), this.2⟩
          · have hk : k = mc := congrArg Prod.fst h1
            have hd : d = ⟨p.2, ((colGet s.cols mc).filter
                  (isOffendingCell (acceptableNorm concepts p.2))).length,
                pydedup (offendingRaw (acceptableNorm concepts p.2) (colGet s.cols mc)),
                (acceptableRaw concepts p.2).length,
                (acceptableRaw concepts p.2).take 5⟩ := congrArg Prod.snd h1
            refine ⟨?_, ?_, ?_, ?_, ?_⟩
            · rw [hk]
              exact List.mem_append.2 (Or.inr (List.mem_singleton.2 rfl))
            · rw [hd]
              rcases List.any_eq_true.1 ha with ⟨x, hx, hpx⟩
              exact List.length_pos_of_mem (List.mem_filter.2 ⟨hx, hpx⟩)
            · rw [hd]
              exact nodup_pydedup _
            · rw [hd]
              show (pydedup (offendingRaw _ _)).length ≤ _
              exact (length_pydedup_le _).trans (le_of_eq (offendingRaw_length _ _))
            · rw [hd]
              show ((acceptableRaw concepts p.2).take 5).length ≤ 5
              rw [List.length_take]
              exact min_le_left _ _

/-- C8 (amended): every entry of per-column detail belongs to a checked
column and records at least one offense; checked columns with zero offending
values receive no entry (the entry is created only inside the
offending-values branch). -/
theorem C8_details_entries (rm : ResourceModel) (concepts : Concepts) (xml : XmlFile)
    (df : DataFrame) :
    ∀ k d, (k, d) ∈ (validate_and_clean_concept_values df rm concepts xml).2.details →
      k ∈ (validate_and_clean_concept_values df rm concepts xml).2.columns_checked
      ∧ 1 ≤ d.offending_count := by
  intro k d h
  have := foldl_vstep_details_invariant concepts (column_to_concept rm concepts xml)
    ⟨df.cols, [], 0, 0, []⟩ (fun k2 d2 h2 => by cases h2) k d h
  exact ⟨this.1, this.2.1⟩

/-- Witness for C8 at a concrete input with one offending column. -/
theorem C8_details_entries_witness :
    "material" ∈ (validate_and_clean_concept_values exDFwood exRM1 exConceptsMat
        exXmlMaterial).2.columns_checked
    ∧ 1 ≤ (⟨"Material", 1, ["Wood"], 1, ["Stone"]⟩ : Detail).offending_count :=
  C8_details_entries exRM1 exConceptsMat exXmlMaterial exDFwood "material"
    ⟨"Material", 1, ["Wood"], 1, ["Stone"]⟩ (by decide)

/-- C8 counterexample: the stone column is checked, holds zero offending
values, and receives no per-column detail entry at all. -/
theorem C8_counterexample_zero_offense_column_unreported :
    (validate_and_clean_concept_values exDFstone exRM1 exConceptsMat
        exXmlMaterial).2.columns_checked = ["material"]
    ∧ (validate_and_clean_concept_values exDFstone exRM1 exConceptsMat
        exXmlMaterial).2.details = [] :=
  ⟨by decide, by decide⟩

/-- C9 (amended): a detail entry records every distinct offending raw value
of its column without any fixed bound (a duplicate-free list no longer than
the offending count); the only bounded sample is the acceptable-value sample,
truncated to the first five. -/
theorem C9_offending_sample_shape (rm : ResourceModel) (concepts : Concepts)
    (xml : XmlFile) (df : DataFrame) :
    ∀ k d, (k, d) ∈ (validate_and_clean_concept_values df rm concepts xml).2.details →
      d.offending_values.Nodup ∧ d.offending_values.length ≤ d.offending_count
      ∧ d.sample_acceptable_values.length ≤ 5 := by
  intro k d h
  have := foldl_vstep_details_invariant concepts (column_to_concept rm concepts xml)
    ⟨df.cols, [], 0, 0, []⟩ (fun k2 d2 h2 => by cases h2) k d h
  exact this.2.2

/-- Witness for C9 at a concrete input with one offending column. -/
theorem C9_offending_sample_shape_witness :
    (["Wood"] : List String).Nodup ∧ (1 : Nat) ≤ 1
    ∧ (["Stone"] : List String).length ≤ 5 :=
  C9_offending_sample_shape exRM1 exConceptsMat exXmlMaterial exDFwood "material"
    ⟨"Material", 1, ["Wood"], 1, ["Stone"]⟩ (by decide)

/-- C9 counterexample: a column with six distinct offending values gets all
six recorded in its detail entry, exceeding the claimed bound of five. -/
theorem C9_counterexample_six_distinct_offending_recorded :
    dictLookup (validate_and_clean_concept_values exDFsix exRM1 exConceptsMat
        exXmlMaterial).2.details "material"
      = some ⟨"Material", 6, ["Wood", "Glass", "Iron", "Paper", "Cloth", "Amber"],
          1, ["Stone"]⟩
    ∧ ¬ (6 ≤ 5) :=
  ⟨by decide, by decide⟩

end Shataba
